import Mathlib

/-!
Verification of the wiki-link resolution and graph-construction engine of the
second-brain note-taking application.

The development shallowly embeds the TypeScript sources:
* `src/lib/wikilinks.ts` — link extraction (`extractWikiLinks`), target
  normalization (`normalizeWikiTarget`), the four-rule resolution cascade
  (`resolveWikiLink`) and backlink derivation (`getBacklinks`);
* `src/app/api/graph/route.ts` — `normalizeToSlug`, `findDocumentSlug` and
  the corpus-wide graph builder `getGraphData`;
* the backlinks API route — the outlinks loop (`getOutlinks`).

Strings are modelled as `List Char`; JavaScript string operations
(`toLowerCase`, `trim`, `includes`, regex replaces, the wiki-link regex) are
modelled character-by-character on ASCII.  Filesystem loading of the corpus
is out of scope (the spec treats storage as an external collaborator): every
function takes the corpus as an argument.
-/

/-! ### Definitions -/

/-- ASCII whitespace, modelling the characters matched by JavaScript `\s`
(restricted to ASCII) and removed by `String.prototype.trim`. -/
def isWs (c : Char) : Bool :=
  decide (c = ' ') || decide (c = '\t') || decide (c = '\n') || decide (c = '\r') ||
  decide (c = '\x0b') || decide (c = '\x0c')

/-- JavaScript word characters `\w` = `[A-Za-z0-9_]`. -/
def isWordChar (c : Char) : Bool :=
  decide ((65 ≤ c.toNat ∧ c.toNat ≤ 90) ∨ (97 ≤ c.toNat ∧ c.toNat ≤ 122) ∨
          (48 ≤ c.toNat ∧ c.toNat ≤ 57) ∨ c = '_')

/-- JavaScript digits `\d` = `[0-9]`. -/
def isDigitChar (c : Char) : Bool :=
  decide (48 ≤ c.toNat ∧ c.toNat ≤ 57)

/-- JavaScript `String.prototype.trim` on a list of characters. -/
def jsTrim (s : List Char) : List Char :=
  ((s.dropWhile isWs).reverse.dropWhile isWs).reverse

/-- JavaScript `String.prototype.toLowerCase` (ASCII). -/
def toLowerStr (s : List Char) : List Char :=
  s.map Char.toLower

/-- `replace(/[^\w\s-]/g, "")`: delete every character that is not a word
character, whitespace, or a hyphen. -/
def stripNonWord (s : List Char) : List Char :=
  s.filter (fun c => isWordChar c || isWs c || decide (c = '-'))

/-- Helper for `collapseWs`: `prevWs` records whether the previous character
was whitespace (in which case this run has already emitted its hyphen). -/
def collapseWsAux (prevWs : Bool) : List Char → List Char
  | [] => []
  | c :: cs =>
    if isWs c then
      if prevWs then collapseWsAux true cs else '-' :: collapseWsAux true cs
    else c :: collapseWsAux false cs

/-- `replace(/\s+/g, "-")`: each maximal run of whitespace becomes one hyphen. -/
def collapseWs (s : List Char) : List Char :=
  collapseWsAux false s

/-- JavaScript `a.includes(b)`: `needle` occurs contiguously in `hay`. -/
def containsSub (hay needle : List Char) : Bool :=
  match hay with
  | [] => needle.isEmpty
  | _ :: t => needle.isPrefixOf hay || containsSub t needle

/-- `slug.split("/").pop() || ""`: the text after the last `/` (the whole
string when there is no `/`). -/
def lastSegment (s : List Char) : List Char :=
  (s.reverse.takeWhile (fun c => decide (c ≠ '/'))).reverse

/-- The regex `^\d{4}-\d{2}-\d{2}$`. -/
def isDateShaped : List Char → Bool
  | [a, b, c, d, h1, e, f, h2, g, h] =>
    isDigitChar a && isDigitChar b && isDigitChar c && isDigitChar d &&
    decide (h1 = '-') && isDigitChar e && isDigitChar f &&
    decide (h2 = '-') && isDigitChar g && isDigitChar h
  | _ => false

/-- `normalizeWikiTarget` from src/lib/wikilinks.ts (and, identically,
`normalizeToSlug` from the graph route). -/
def normalizeWikiTarget (target : List Char) : List Char :=
  if '/' ∈ target then
    jsTrim (toLowerStr target)
  else if isDateShaped target then
    "journals/".toList ++ target
  else
    jsTrim (collapseWs (stripNonWord (toLowerStr target)))

/-- One extracted wiki-link occurrence (`WikiLink` in src/lib/wikilinks.ts). -/
structure WikiLink where
  raw : List Char
  target : List Char
  alias? : Option (List Char)
  startIndex : Nat
  endIndex : Nat
deriving DecidableEq

/-- Try to match the regex `\[\[([^\]|]+)(?:\|([^\]]+))?\]\]` at the start of
`s`; on success return the raw capture groups and the match length. Greedy
matching of the character classes equals maximal munch here because any
shorter run leaves the next required literal unmatched. -/
def linkTargetChar (c : Char) : Bool :=
  decide (c ≠ ']') && decide (c ≠ '|')

def aliasChar (c : Char) : Bool :=
  decide (c ≠ ']')

def matchAt (s : List Char) : Option (List Char × Option (List Char) × Nat) :=
  match s with
  | '[' :: '[' :: rest =>
    if (rest.takeWhile linkTargetChar).isEmpty then none
    else
      match rest.drop (rest.takeWhile linkTargetChar).length with
      | '|' :: rest2 =>
        if (rest2.takeWhile aliasChar).isEmpty then none
        else
          match rest2.drop (rest2.takeWhile aliasChar).length with
          | ']' :: ']' :: _ =>
            some (rest.takeWhile linkTargetChar, some (rest2.takeWhile aliasChar),
              (rest.takeWhile linkTargetChar).length + (rest2.takeWhile aliasChar).length + 5)
          | _ => none
      | ']' :: ']' :: _ =>
        some (rest.takeWhile linkTargetChar, none, (rest.takeWhile linkTargetChar).length + 4)
      | _ => none
  | _ => none

/-- Fuel-based scanner equivalent to repeated `WIKI_LINK_REGEX.exec`: try to
match at each position, emit the occurrence and resume after it. The fuel is
an upper bound on the number of remaining characters, so structural recursion
on it reproduces the unbounded scan. -/
def scanAux : Nat → List Char → Nat → List WikiLink
  | 0, _, _ => []
  | _ + 1, [], _ => []
  | fuel + 1, c :: rest, pos =>
    match matchAt (c :: rest) with
    | some (tgt, al, len) =>
      { raw := (c :: rest).take len, target := jsTrim tgt, alias? := al.map jsTrim,
        startIndex := pos, endIndex := pos + len } ::
      scanAux fuel ((c :: rest).drop len) (pos + len)
    | none => scanAux fuel rest (pos + 1)

/-- `extractWikiLinks` from src/lib/wikilinks.ts. -/
def extractWikiLinks (content : List Char) : List WikiLink :=
  scanAux content.length content 0

/-- The `{slug, title}` projection of a document that resolution reads. -/
structure DocRef where
  slug : List Char
  title : List Char
deriving DecidableEq

/-- Rule 1 of `resolveWikiLink`: exact slug match. -/
def exactRule (target : List Char) (d : DocRef) : Bool :=
  decide (d.slug = normalizeWikiTarget target)

/-- Rule 2: filename (last slug segment) match, against the normalized
candidate or the raw target lower-cased with whitespace runs hyphenated. -/
def filenameRule (target : List Char) (d : DocRef) : Bool :=
  decide (lastSegment d.slug = normalizeWikiTarget target) ||
  decide (lastSegment d.slug = collapseWs (toLowerStr target))

/-- Rule 3: case-insensitive exact title match. -/
def titleRule (target : List Char) (d : DocRef) : Bool :=
  decide (toLowerStr d.title = toLowerStr target)

/-- Rule 4: fuzzy title match, substring containment in either direction. -/
def fuzzyRule (target : List Char) (d : DocRef) : Bool :=
  containsSub (toLowerStr d.title) (toLowerStr target) ||
  containsSub (toLowerStr target) (toLowerStr d.title)

/-- `resolveWikiLink` from src/lib/wikilinks.ts: the four rules in order,
early-returning at the first rule whose `find` succeeds. -/
def resolveWikiLink (target : List Char) (documents : List DocRef) : Option DocRef :=
  match documents.find? (exactRule target) with
  | some d => some d
  | none =>
    match documents.find? (filenameRule target) with
    | some d => some d
    | none =>
      match documents.find? (titleRule target) with
      | some d => some d
      | none =>
        match documents.find? (fuzzyRule target) with
        | some d => some d
        | none => none

/-- A document as read by `getBacklinks` and the backlinks route. -/
structure Doc where
  slug : List Char
  title : List Char
  content : List Char
deriving DecidableEq

/-- The loop-body test of `getBacklinks`: does this occurrence resolve against
the pool containing only the target document? -/
def backlinkPred (targetSlug targetTitle : List Char) (l : WikiLink) : Bool :=
  (resolveWikiLink l.target [⟨targetSlug, targetTitle⟩]).isSome

/-- The context excerpt built by `getBacklinks`: slice the `[startIndex-50,
endIndex+50]` window (indices clamped to the string; the `Nat` subtraction is
`Math.max(0, startIndex - 50)`), add `"..."` on a side exactly when the slice
did not reach that end of the content, then replace newlines by spaces and
trim. -/
def backlinkContext (content : List Char) (l : WikiLink) : List Char :=
  let contextStart := l.startIndex - 50
  let contextEnd := min content.length (l.endIndex + 50)
  let context := (content.drop contextStart).take (contextEnd - contextStart)
  let context := if 0 < contextStart then "...".toList ++ context else context
  let context := if contextEnd < content.length then context ++ "...".toList else context
  jsTrim (context.map (fun c => if c = '\n' then ' ' else c))

/-- One backlink record. -/
structure Backlink where
  slug : List Char
  title : List Char
  context : List Char
deriving DecidableEq

/-- One iteration of the outer `getBacklinks` loop: skip the target
document itself, otherwise record an entry from the first occurrence whose
target resolves against the singleton pool (the inner loop's `break`). -/
def backlinkEntry (targetSlug targetTitle : List Char) (doc : Doc) : Option Backlink :=
  if doc.slug = targetSlug then none
  else
    ((extractWikiLinks doc.content).find? (backlinkPred targetSlug targetTitle)).map
      (fun link => { slug := doc.slug, title := doc.title,
                     context := backlinkContext doc.content link })

/-- `getBacklinks` from src/lib/wikilinks.ts. -/
def getBacklinks (targetSlug targetTitle : List Char) (documents : List Doc) :
    List Backlink :=
  documents.filterMap (backlinkEntry targetSlug targetTitle)

/-- A corpus document as assembled by the graph route (category included). -/
structure GDoc where
  slug : List Char
  title : List Char
  content : List Char
  category : List Char
deriving DecidableEq

/-- `findDocumentSlug` from the graph route: the same four-rule cascade as
`resolveWikiLink`, returning the matched slug. -/
def findDocumentSlug (target : List Char) (documents : List DocRef) : Option (List Char) :=
  match documents.find? (exactRule target) with
  | some d => some d.slug
  | none =>
    match documents.find? (filenameRule target) with
    | some d => some d.slug
    | none =>
      match documents.find? (titleRule target) with
      | some d => some d.slug
      | none =>
        match documents.find? (fuzzyRule target) with
        | some d => some d.slug
        | none => none

structure GraphLink where
  source : List Char
  target : List Char
deriving DecidableEq

structure GraphNode where
  id : List Char
  title : List Char
  category : List Char
  linkCount : Nat
  size : Nat
deriving DecidableEq

structure GraphData where
  nodes : List GraphNode
  links : List GraphLink
deriving DecidableEq

/-- The `linkCounts` record: an insertion-ordered association list. -/
def lookupCount (m : List (List Char × Nat)) (s : List Char) : Nat :=
  match m with
  | [] => 0
  | (k, v) :: rest => if k = s then v else lookupCount rest s

/-- `linkCounts[s] = (linkCounts[s] || 0) + 1`. -/
def bump (s : List Char) : List (List Char × Nat) → List (List Char × Nat)
  | [] => [(s, 1)]
  | (k, v) :: rest => if k = s then (k, v + 1) :: rest else (k, v) :: bump s rest

structure GraphState where
  links : List GraphLink
  counts : List (List Char × Nat)

/-- The key `` `${source}|${target}` `` used by the dedup check. -/
def edgeKey (source target : List Char) : List Char :=
  source ++ '|' :: target

/-- The body of the graph route's inner loop, for one link occurrence of
`doc`. `targetSlug && targetSlug !== doc.slug` is falsy both for `null` and
for the empty string. -/
def graphStep (documents : List DocRef) (doc : GDoc) (st : GraphState)
    (target : List Char) : GraphState :=
  match findDocumentSlug target documents with
  | none => st
  | some targetSlug =>
    if targetSlug ≠ [] ∧ targetSlug ≠ doc.slug then
      { links :=
          if edgeKey doc.slug targetSlug ∈ st.links.map (fun l => edgeKey l.source l.target) ∨
             edgeKey targetSlug doc.slug ∈ st.links.map (fun l => edgeKey l.source l.target) then
            st.links
          else st.links ++ [⟨doc.slug, targetSlug⟩],
        counts := bump targetSlug (bump doc.slug st.counts) }
    else st

/-- The targets the graph route extracts: `match[1].trim()` for each
occurrence of the wiki-link regex. -/
def extractTargets (content : List Char) : List (List Char) :=
  (extractWikiLinks content).map (fun l => l.target)

/-- The second pass of `getGraphData`: fold the per-occurrence step over
every document's extracted targets, starting from empty links and counts. -/
def buildGraphState (documents : List GDoc) (refs : List DocRef) : GraphState :=
  documents.foldl
    (fun st doc => (extractTargets doc.content).foldl (graphStep refs doc) st)
    ⟨[], []⟩

/-- The node built for `doc` from the final `linkCounts`. -/
def mkGraphNode (counts : List (List Char × Nat)) (doc : GDoc) : GraphNode :=
  { id := doc.slug, title := doc.title, category := doc.category,
    linkCount := lookupCount counts doc.slug,
    size := max 4 (min 20 (4 + lookupCount counts doc.slug * 2)) }

/-- `getGraphData` (second pass + node construction) from the graph route,
over an in-memory corpus. Resolution reads only `slug` and `title`, so the
corpus is projected to `DocRef` for the resolver. -/
def getGraphData (documents : List GDoc) : GraphData :=
  { nodes := documents.map
      (mkGraphNode (buildGraphState documents
        (documents.map (fun d => (⟨d.slug, d.title⟩ : DocRef)))).counts),
    links := (buildGraphState documents
      (documents.map (fun d => (⟨d.slug, d.title⟩ : DocRef)))).links }

/-- One outlink entry emitted by the backlinks route. -/
structure Outlink where
  slug : List Char
  title : List Char
  exists_ : Bool
deriving DecidableEq

/-- Build one outlink entry: `resolved?.slug || link.target` falls back to the
raw target when resolution fails (and, JavaScript `||` being falsiness-based,
also when the resolved field is the empty string). -/
def mkOutlink (documents : List DocRef) (l : WikiLink) : Outlink :=
  match resolveWikiLink l.target documents with
  | some d =>
    { slug := if d.slug = [] then l.target else d.slug,
      title := if d.title = [] then l.target else d.title,
      exists_ := true }
  | none => { slug := l.target, title := l.target, exists_ := false }

/-- The outlinks loop of the backlinks route: `seen` is the set of
lower-cased targets already emitted. -/
def outlinksLoop (documents : List DocRef) (seen : List (List Char)) :
    List WikiLink → List Outlink
  | [] => []
  | l :: rest =>
    if toLowerStr l.target ∈ seen then outlinksLoop documents seen rest
    else mkOutlink documents l :: outlinksLoop documents (toLowerStr l.target :: seen) rest

/-- The outlinks computed by the backlinks route for `targetDoc`. -/
def getOutlinks (targetDoc : Doc) (documents : List Doc) : List Outlink :=
  outlinksLoop (documents.map (fun d => (⟨d.slug, d.title⟩ : DocRef))) []
    (extractWikiLinks targetDoc.content)

/-- `d` is the first element of `docs`, in corpus iteration order, that
satisfies `p`. -/
def FirstMatch (p : DocRef → Bool) (docs : List DocRef) (d : DocRef) : Prop :=
  ∃ i, ∃ h : i < docs.length, docs.get ⟨i, h⟩ = d ∧ p d = true ∧
    ∀ j, ∀ hj : j < docs.length, j < i → p (docs.get ⟨j, hj⟩) = false

/-- `normalizeToSlug` from src/app/api/graph/route.ts; its body is
character-for-character the same as `normalizeWikiTarget`. -/
def normalizeToSlug (target : List Char) : List Char :=
  if '/' ∈ target then
    jsTrim (toLowerStr target)
  else if isDateShaped target then
    "journals/".toList ++ target
  else
    jsTrim (collapseWs (stripNonWord (toLowerStr target)))

/-- Two edges connect the same unordered pair of slugs. -/
def SamePair (e1 e2 : GraphLink) : Prop :=
  (e1.source = e2.source ∧ e1.target = e2.target) ∨
  (e1.source = e2.target ∧ e1.target = e2.source)

/-- The edge-set invariant: no self-edges and no two edges over the same
unordered pair. -/
def EdgesOk (links : List GraphLink) : Prop :=
  (∀ e ∈ links, e.source ≠ e.target) ∧
  links.Pairwise (fun e1 e2 => ¬ SamePair e1 e2)

/-- The number of deduplicated edges incident to slug `s` — what the claim
says `linkCount` equals. -/
def incidentCount (links : List GraphLink) (s : List Char) : Nat :=
  (links.filter (fun e => decide (e.source = s) || decide (e.target = s))).length

/-- The counter contribution of one link occurrence of `doc` to slug `s`:
both endpoints of every resolved, non-empty, non-self occurrence are
counted, with no regard to edge dedup. -/
def occContrib (refs : List DocRef) (doc : GDoc) (target s : List Char) : Nat :=
  match findDocumentSlug target refs with
  | none => 0
  | some ts =>
    if ts ≠ [] ∧ ts ≠ doc.slug then
      (if doc.slug = s then 1 else 0) + (if ts = s then 1 else 0)
    else 0

/-- Total counter contributions to `s` over the whole corpus: the raw
occurrence volume incident to `s`. -/
def occTotal (documents : List GDoc) (refs : List DocRef) (s : List Char) : Nat :=
  (documents.map (fun doc =>
    ((extractTargets doc.content).map (fun t => occContrib refs doc t s)).sum)).sum

/-- The context as the claim literally reads: the clamped window with
newlines replaced, and an ellipsis at an edge exactly when the window was
clamped to the content bounds at that edge (window start below 0, window end
beyond the content length); no final trim. -/
def claimContext (content : List Char) (l : WikiLink) : List Char :=
  (if l.startIndex < 50 then "...".toList else []) ++
  ((content.take (min content.length (l.endIndex + 50))).drop (l.startIndex - 50)).map
    (fun c => if c = '\n' then ' ' else c) ++
  (if content.length < l.endIndex + 50 then "...".toList else [])

/-- The context as amended: ellipsis at an edge exactly when content was
omitted there (the clamped window starts after position 0, or ends before
the end of the content), newlines then replaced by spaces, and the result
finally trimmed of surrounding whitespace. -/
def amendedContext (content : List Char) (l : WikiLink) : List Char :=
  jsTrim ((
    (if 50 < l.startIndex then "...".toList else []) ++
    (content.take (min content.length (l.endIndex + 50))).drop (l.startIndex - 50) ++
    (if l.endIndex + 50 < content.length then "...".toList else [])
  ).map (fun c => if c = '\n' then ' ' else c))

/-- Case-insensitive first-occurrence dedup of link occurrences, the
specification-side description of the outlinks loop's `seen` set. -/
def dedupFirstAux (seen : List (List Char)) : List WikiLink → List WikiLink
  | [] => []
  | l :: rest =>
    if toLowerStr l.target ∈ seen then dedupFirstAux seen rest
    else l :: dedupFirstAux (toLowerStr l.target :: seen) rest

def dedupFirst (ls : List WikiLink) : List WikiLink :=
  dedupFirstAux [] ls

/-! ### Theorems -/

theorem toNat_ofNat_valid {n : Nat} (h : n.isValidChar) : (Char.ofNat n).toNat = n := by
  rw [Char.ofNat, dif_pos h]
  rfl

theorem toLower_toNat_of_upper {c : Char} (h : 65 ≤ c.toNat ∧ c.toNat ≤ 90) :
    (Char.toLower c).toNat = c.toNat + 32 := by
  rw [Char.toLower]
  simp only [ge_iff_le, h, and_self, if_true]
  exact toNat_ofNat_valid (Or.inl (by omega))

theorem toLower_eq_of_not_upper {c : Char} (h : ¬(65 ≤ c.toNat ∧ c.toNat ≤ 90)) :
    Char.toLower c = c := by
  rw [Char.toLower]
  simp only [ge_iff_le, if_neg h]

theorem toLower_idem (c : Char) : Char.toLower (Char.toLower c) = Char.toLower c := by
  by_cases h : 65 ≤ c.toNat ∧ c.toNat ≤ 90
  · have h2 := toLower_toNat_of_upper h
    exact toLower_eq_of_not_upper (by omega)
  · rw [toLower_eq_of_not_upper h, toLower_eq_of_not_upper h]

theorem matchAt_len_pos {s : List Char} {tgt : List Char} {al : Option (List Char)}
    {len : Nat} (h : matchAt s = some (tgt, al, len)) : 0 < len := by
  unfold matchAt at h
  split at h
  · split at h
    · exact absurd h (by simp)
    · split at h
      · split at h
        · exact absurd h (by simp)
        · split at h
          · simp only [Option.some.injEq, Prod.mk.injEq] at h
            omega
          · exact absurd h (by simp)
      · simp only [Option.some.injEq, Prod.mk.injEq] at h
        omega
      · exact absurd h (by simp)
  · exact absurd h (by simp)

theorem find?_eq_some_iff_firstMatch (p : DocRef → Bool) (docs : List DocRef) (d : DocRef) :
    docs.find? p = some d ↔ FirstMatch p docs d := by
  induction docs with
  | nil => simp [FirstMatch]
  | cons a t ih =>
    by_cases hpa : p a
    · rw [List.find?_cons_of_pos _ hpa]
      constructor
      · intro h
        injection h with h
        subst h
        exact ⟨0, Nat.succ_pos _, rfl, hpa, fun j hj hji => absurd hji (Nat.not_lt_zero j)⟩
      · rintro ⟨i, hi, hget, hpd, hprev⟩
        cases i with
        | zero => rw [← hget]; rfl
        | succ k =>
          have := hprev 0 (Nat.succ_pos _) (Nat.succ_pos _)
          simp only [List.get] at this
          rw [this] at hpa
          cases hpa
    · rw [List.find?_cons_of_neg _ hpa, ih]
      constructor
      · rintro ⟨i, hi, hget, hpd, hprev⟩
        refine ⟨i + 1, Nat.succ_lt_succ hi, ?_, hpd, ?_⟩
        · simpa using hget
        · intro j hj hji
          cases j with
          | zero => simpa using Bool.eq_false_iff.mpr hpa
          | succ m =>
            have := hprev m (Nat.lt_of_succ_lt_succ hj) (Nat.lt_of_succ_lt_succ hji)
            simpa using this
      · rintro ⟨i, hi, hget, hpd, hprev⟩
        cases i with
        | zero =>
          simp only [List.get] at hget
          rw [hget] at hpa
          exact absurd hpd hpa
        | succ k =>
          refine ⟨k, Nat.lt_of_succ_lt_succ hi, by simpa using hget, hpd, ?_⟩
          intro j hj hji
          have := hprev (j + 1) (Nat.succ_lt_succ hj) (Nat.succ_lt_succ hji)
          simpa using this

/-- C1. Resolver precedence: `resolveWikiLink` returns `some d` exactly when
`d` is the first document, in corpus iteration order, matching the
earliest-precedence rule (exact slug, then filename, then case-insensitive
title, then fuzzy title substring) that matches any document at all; and on
the corpus `[{slug: "concepts/foo", title: "Bar"}, {slug: "concepts/bar",
title: "Foo"}]` the raw target `"foo"` resolves to the first document. -/
theorem resolver_precedence :
    (∀ (target : List Char) (docs : List DocRef) (d : DocRef),
      resolveWikiLink target docs = some d ↔
        (FirstMatch (exactRule target) docs d ∨
         ((∀ e ∈ docs, exactRule target e = false) ∧
            FirstMatch (filenameRule target) docs d) ∨
         ((∀ e ∈ docs, exactRule target e = false) ∧
            (∀ e ∈ docs, filenameRule target e = false) ∧
            FirstMatch (titleRule target) docs d) ∨
         ((∀ e ∈ docs, exactRule target e = false) ∧
            (∀ e ∈ docs, filenameRule target e = false) ∧
            (∀ e ∈ docs, titleRule target e = false) ∧
            FirstMatch (fuzzyRule target) docs d))) ∧
    resolveWikiLink "foo".toList
      [⟨"concepts/foo".toList, "Bar".toList⟩, ⟨"concepts/bar".toList, "Foo".toList⟩] =
      some ⟨"concepts/foo".toList, "Bar".toList⟩ := by
  constructor
  · intro target docs d
    have hnone : ∀ p : DocRef → Bool, (∀ e ∈ docs, p e = false) → docs.find? p = none :=
      fun p h => List.find?_eq_none.mpr (fun x hx => by simp [h x hx])
    unfold resolveWikiLink
    cases h1 : docs.find? (exactRule target) with
    | some e =>
      constructor
      · intro h
        injection h with h
        exact Or.inl (h ▸ (find?_eq_some_iff_firstMatch _ _ _).mp h1)
      · rintro (hfm | ⟨hn, _⟩ | ⟨hn, _⟩ | ⟨hn, _⟩)
        · have := (find?_eq_some_iff_firstMatch _ _ _).mpr hfm
          rw [h1] at this
          injection this with this
          rw [this]
        all_goals (rw [hnone _ hn] at h1; cases h1)
    | none =>
      have hn1 : ∀ e ∈ docs, exactRule target e = false := by
        intro e he
        have := List.find?_eq_none.mp h1 e he
        simpa using this
      cases h2 : docs.find? (filenameRule target) with
      | some e =>
        constructor
        · intro h
          injection h with h
          exact Or.inr (Or.inl ⟨hn1, h ▸ (find?_eq_some_iff_firstMatch _ _ _).mp h2⟩)
        · rintro (hfm | ⟨_, hfm⟩ | ⟨_, hn, _⟩ | ⟨_, hn, _⟩)
          · have := (find?_eq_some_iff_firstMatch _ _ _).mpr hfm
            rw [h1] at this
            cases this
          · have := (find?_eq_some_iff_firstMatch _ _ _).mpr hfm
            rw [h2] at this
            injection this with this
            rw [this]
          all_goals (rw [hnone _ hn] at h2; cases h2)
      | none =>
        have hn2 : ∀ e ∈ docs, filenameRule target e = false := by
          intro e he
          have := List.find?_eq_none.mp h2 e he
          simpa using this
        cases h3 : docs.find? (titleRule target) with
        | some e =>
          constructor
          · intro h
            injection h with h
            exact Or.inr (Or.inr (Or.inl ⟨hn1, hn2,
              h ▸ (find?_eq_some_iff_firstMatch _ _ _).mp h3⟩))
          · rintro (hfm | ⟨_, hfm⟩ | ⟨_, _, hfm⟩ | ⟨_, _, hn, _⟩)
            · have := (find?_eq_some_iff_firstMatch _ _ _).mpr hfm
              rw [h1] at this
              cases this
            · have := (find?_eq_some_iff_firstMatch _ _ _).mpr hfm
              rw [h2] at this
              cases this
            · have := (find?_eq_some_iff_firstMatch _ _ _).mpr hfm
              rw [h3] at this
              injection this with this
              rw [this]
            · rw [hnone _ hn] at h3
              cases h3
        | none =>
          have hn3 : ∀ e ∈ docs, titleRule target e = false := by
            intro e he
            have := List.find?_eq_none.mp h3 e he
            simpa using this
          cases h4 : docs.find? (fuzzyRule target) with
          | some e =>
            constructor
            · intro h
              injection h with h
              exact Or.inr (Or.inr (Or.inr ⟨hn1, hn2, hn3,
                h ▸ (find?_eq_some_iff_firstMatch _ _ _).mp h4⟩))
            · rintro (hfm | ⟨_, hfm⟩ | ⟨_, _, hfm⟩ | ⟨_, _, _, hfm⟩)
              · have := (find?_eq_some_iff_firstMatch _ _ _).mpr hfm
                rw [h1] at this
                cases this
              · have := (find?_eq_some_iff_firstMatch _ _ _).mpr hfm
                rw [h2] at this
                cases this
              · have := (find?_eq_some_iff_firstMatch _ _ _).mpr hfm
                rw [h3] at this
                cases this
              · have := (find?_eq_some_iff_firstMatch _ _ _).mpr hfm
                rw [h4] at this
                injection this with this
                rw [this]
          | none =>
            constructor
            · intro h
              cases h
            · rintro (hfm | ⟨_, hfm⟩ | ⟨_, _, hfm⟩ | ⟨_, _, _, hfm⟩)
              · have := (find?_eq_some_iff_firstMatch _ _ _).mpr hfm
                rw [h1] at this
                cases this
              · have := (find?_eq_some_iff_firstMatch _ _ _).mpr hfm
                rw [h2] at this
                cases this
              · have := (find?_eq_some_iff_firstMatch _ _ _).mpr hfm
                rw [h3] at this
                cases this
              · have := (find?_eq_some_iff_firstMatch _ _ _).mpr hfm
                rw [h4] at this
                cases this
  · decide

theorem dropWhile_idem (p : Char → Bool) (s : List Char) :
    (s.dropWhile p).dropWhile p = s.dropWhile p := by
  induction s with
  | nil => rfl
  | cons a t ih =>
    rw [List.dropWhile_cons]
    by_cases hpa : p a
    · simpa [hpa] using ih
    · simp [List.dropWhile_cons, hpa]

theorem dropWhile_eq_self_of_front {p : Char → Bool} {u v : List Char}
    (hpre : u <+: v) (hv : v.dropWhile p = v) : u.dropWhile p = u := by
  cases u with
  | nil => rfl
  | cons a t =>
    obtain ⟨r, hr⟩ := hpre
    subst hr
    rw [List.cons_append, List.dropWhile_cons] at hv
    by_cases hpa : p a
    · rw [if_pos hpa] at hv
      have hle : ((t ++ r).dropWhile p).length ≤ (t ++ r).length :=
        (List.dropWhile_sublist p).length_le
      rw [hv] at hle
      simp only [List.length_cons, List.length_append] at hle
      omega
    · simp [List.dropWhile_cons, hpa]

theorem mem_of_mem_jsTrim {c : Char} {s : List Char} (h : c ∈ jsTrim s) : c ∈ s := by
  unfold jsTrim at h
  rw [List.mem_reverse] at h
  have h2 := (List.dropWhile_sublist isWs).mem h
  rw [List.mem_reverse] at h2
  exact (List.dropWhile_sublist isWs).mem h2

theorem jsTrim_idem (s : List Char) : jsTrim (jsTrim s) = jsTrim s := by
  unfold jsTrim
  have hv : (s.dropWhile isWs).dropWhile isWs = s.dropWhile isWs := dropWhile_idem isWs s
  have hpre : ((s.dropWhile isWs).reverse.dropWhile isWs).reverse <+: s.dropWhile isWs := by
    have h0 : (s.dropWhile isWs).reverse.dropWhile isWs <:+ (s.dropWhile isWs).reverse :=
      List.dropWhile_suffix isWs
    simpa using List.reverse_prefix.mpr h0
  rw [dropWhile_eq_self_of_front hpre hv, List.reverse_reverse,
    dropWhile_idem]

theorem dropWhile_eq_self_of_none {p : Char → Bool} {s : List Char}
    (h : ∀ c ∈ s, p c = false) : s.dropWhile p = s := by
  cases s with
  | nil => rfl
  | cons a t => simp [List.dropWhile_cons, h a (List.mem_cons_self a t)]

theorem jsTrim_eq_self_of_noWs {s : List Char} (h : ∀ c ∈ s, isWs c = false) :
    jsTrim s = s := by
  unfold jsTrim
  rw [dropWhile_eq_self_of_none h,
    dropWhile_eq_self_of_none (fun c hc => h c (List.mem_reverse.mp hc)),
    List.reverse_reverse]

theorem toLower_fix_of_mem_toLowerStr {c : Char} {s : List Char}
    (h : c ∈ toLowerStr s) : Char.toLower c = c := by
  unfold toLowerStr at h
  obtain ⟨d, _, rfl⟩ := List.mem_map.mp h
  exact toLower_idem d

theorem toLowerStr_eq_self_of_fix {s : List Char}
    (h : ∀ c ∈ s, Char.toLower c = c) : toLowerStr s = s := by
  unfold toLowerStr
  rw [List.map_congr_left h, List.map_id']

theorem mem_collapseWsAux {c : Char} {b : Bool} {s : List Char}
    (h : c ∈ collapseWsAux b s) : c = '-' ∨ (c ∈ s ∧ isWs c = false) := by
  induction s generalizing b with
  | nil => cases h
  | cons a t ih =>
    unfold collapseWsAux at h
    by_cases hws : isWs a
    · rw [if_pos hws] at h
      by_cases hb : b
      · rw [if_pos hb] at h
        rcases ih h with h | ⟨hm, hw⟩
        · exact Or.inl h
        · exact Or.inr ⟨List.mem_cons_of_mem a hm, hw⟩
      · rw [if_neg hb] at h
        rcases List.mem_cons.mp h with rfl | h
        · exact Or.inl rfl
        · rcases ih h with h | ⟨hm, hw⟩
          · exact Or.inl h
          · exact Or.inr ⟨List.mem_cons_of_mem a hm, hw⟩
    · rw [if_neg hws] at h
      rcases List.mem_cons.mp h with rfl | h
      · exact Or.inr ⟨List.mem_cons_self _ _, Bool.eq_false_iff.mpr hws⟩
      · rcases ih h with h | ⟨hm, hw⟩
        · exact Or.inl h
        · exact Or.inr ⟨List.mem_cons_of_mem a hm, hw⟩

theorem collapseWsAux_eq_self_of_noWs {b : Bool} {s : List Char}
    (h : ∀ c ∈ s, isWs c = false) : collapseWsAux b s = s := by
  induction s generalizing b with
  | nil => rfl
  | cons a t ih =>
    unfold collapseWsAux
    rw [if_neg (Bool.eq_false_iff.mp (h a (List.mem_cons_self a t)))]
    rw [ih (fun c hc => h c (List.mem_cons_of_mem a hc))]

theorem dateShaped_chars {x : List Char} (hd : isDateShaped x = true) :
    ∀ c ∈ x, isDigitChar c = true ∨ c = '-' := by
  unfold isDateShaped at hd
  split at hd
  · next a b c d h1 e f h2 g h =>
    simp only [Bool.and_eq_true, decide_eq_true_eq] at hd
    intro ch hch
    fin_cases hch <;> tauto
  · cases hd

theorem toLower_fix_of_digit {c : Char} (h : isDigitChar c = true) :
    Char.toLower c = c := by
  simp only [isDigitChar, decide_eq_true_eq] at h
  exact toLower_eq_of_not_upper (by omega)

theorem isWs_eq_false_of_digit {c : Char} (h : isDigitChar c = true) : isWs c = false := by
  simp only [isDigitChar, decide_eq_true_eq] at h
  simp only [isWs, Bool.or_eq_false_iff, decide_eq_false_iff_not]
  refine ⟨⟨⟨⟨⟨?_, ?_⟩, ?_⟩, ?_⟩, ?_⟩, ?_⟩ <;> (rintro rfl; revert h; decide)

theorem mem_dropWhile_of_mem {p : Char → Bool} {c : Char} {s : List Char}
    (h : c ∈ s) (hc : p c = false) : c ∈ s.dropWhile p := by
  induction s with
  | nil => cases h
  | cons a t ih =>
    rw [List.dropWhile_cons]
    by_cases hpa : p a
    · rw [if_pos hpa]
      rcases List.mem_cons.mp h with rfl | h
      · rw [hpa] at hc
        cases hc
      · exact ih h
    · rw [if_neg hpa]
      exact h

theorem mem_jsTrim_of_mem {c : Char} {s : List Char} (h : c ∈ s)
    (hc : isWs c = false) : c ∈ jsTrim s := by
  unfold jsTrim
  rw [List.mem_reverse]
  apply mem_dropWhile_of_mem _ hc
  rw [List.mem_reverse]
  exact mem_dropWhile_of_mem h hc

theorem mem_toLowerStr_self {c : Char} {s : List Char} (h : c ∈ s)
    (hc : Char.toLower c = c) : c ∈ toLowerStr s :=
  List.mem_map.mpr ⟨c, h, hc⟩

/-- Characters surviving the else-branch normalization pipeline are already
lower case, non-whitespace, not `/`, and pass the keep-filter. -/
theorem elseBranch_char_facts {x : List Char} {c : Char}
    (h : c ∈ jsTrim (collapseWs (stripNonWord (toLowerStr x)))) :
    Char.toLower c = c ∧ isWs c = false ∧ c ≠ '/' ∧
    (isWordChar c || isWs c || decide (c = '-')) = true := by
  have h1 := mem_of_mem_jsTrim h
  rcases mem_collapseWsAux h1 with rfl | ⟨h2, hws⟩
  · exact ⟨by decide, by decide, by decide, by decide⟩
  · rw [stripNonWord, List.mem_filter] at h2
    obtain ⟨h3, hkeep⟩ := h2
    have hlow := toLower_fix_of_mem_toLowerStr h3
    refine ⟨hlow, hws, ?_, hkeep⟩
    rintro rfl
    exact absurd hkeep (by decide)

/-- C2 counterexample: normalization is not idempotent on `"2026-01-29!"`.
The first pass strips the `!` leaving the bare date-shaped string
`"2026-01-29"`, and the second pass then prepends `"journals/"`. -/
theorem normalize_idempotence_counterexample :
    normalizeWikiTarget "2026-01-29!".toList = "2026-01-29".toList ∧
    normalizeWikiTarget (normalizeWikiTarget "2026-01-29!".toList) =
      "journals/2026-01-29".toList ∧
    normalizeWikiTarget (normalizeWikiTarget "2026-01-29!".toList) ≠
      normalizeWikiTarget "2026-01-29!".toList := by decide

/-- C2 amended: `normalizeToSlug` is the same function as
`normalizeWikiTarget`, and normalization is idempotent for every input
except when the first pass turns a bare non-date target into a date-shaped
string: if `normalize x` contains `/` or is not date-shaped then
`normalize (normalize x) = normalize x`; in the remaining case the second
pass prepends `"journals/"`. -/
theorem normalize_idempotence_amended :
    (∀ x : List Char, normalizeToSlug x = normalizeWikiTarget x) ∧
    (∀ x : List Char,
      ('/' ∈ normalizeWikiTarget x ∨ isDateShaped (normalizeWikiTarget x) = false) →
      normalizeWikiTarget (normalizeWikiTarget x) = normalizeWikiTarget x) ∧
    (∀ x : List Char,
      '/' ∉ normalizeWikiTarget x → isDateShaped (normalizeWikiTarget x) = true →
      normalizeWikiTarget (normalizeWikiTarget x) =
        "journals/".toList ++ normalizeWikiTarget x) := by
  refine ⟨fun x => rfl, ?_, ?_⟩
  · intro x hyp
    by_cases hslash : '/' ∈ x
    · have hA : normalizeWikiTarget x = jsTrim (toLowerStr x) := by
        unfold normalizeWikiTarget
        rw [if_pos hslash]
      rw [hA]
      have hmem : '/' ∈ jsTrim (toLowerStr x) :=
        mem_jsTrim_of_mem (mem_toLowerStr_self hslash (by decide)) (by decide)
      conv_lhs => rw [normalizeWikiTarget]
      rw [if_pos hmem]
      rw [toLowerStr_eq_self_of_fix
        (fun c hc => toLower_fix_of_mem_toLowerStr (mem_of_mem_jsTrim hc))]
      exact jsTrim_idem _
    · by_cases hdate : isDateShaped x
      · have hB : normalizeWikiTarget x = "journals/".toList ++ x := by
          unfold normalizeWikiTarget
          rw [if_neg hslash, if_pos hdate]
        rw [hB]
        have hm : '/' ∈ "journals/".toList ++ x :=
          List.mem_append.mpr (Or.inl (by decide))
        conv_lhs => rw [normalizeWikiTarget]
        rw [if_pos hm]
        have hfix : ∀ c ∈ "journals/".toList ++ x, Char.toLower c = c := by
          intro c hc
          rcases List.mem_append.mp hc with h | h
          · revert h
            exact fun h => (by decide : ∀ c ∈ "journals/".toList, Char.toLower c = c) c h
          · rcases dateShaped_chars hdate c h with hd | rfl
            · exact toLower_fix_of_digit hd
            · decide
        have hnws : ∀ c ∈ "journals/".toList ++ x, isWs c = false := by
          intro c hc
          rcases List.mem_append.mp hc with h | h
          · exact (by decide : ∀ c ∈ "journals/".toList, isWs c = false) c h
          · rcases dateShaped_chars hdate c h with hd | rfl
            · exact isWs_eq_false_of_digit hd
            · decide
        rw [toLowerStr_eq_self_of_fix hfix, jsTrim_eq_self_of_noWs hnws]
      · have hC : normalizeWikiTarget x =
            jsTrim (collapseWs (stripNonWord (toLowerStr x))) := by
          unfold normalizeWikiTarget
          rw [if_neg hslash, if_neg hdate]
        have hnoslash : '/' ∉ normalizeWikiTarget x := by
          rw [hC]
          intro hmem
          exact (elseBranch_char_facts hmem).2.2.1 rfl
        have hdate2 : isDateShaped (normalizeWikiTarget x) = false := by
          rcases hyp with h | h
          · exact absurd h hnoslash
          · exact h
        rw [hC] at hnoslash hdate2
        rw [hC]
        conv_lhs => rw [normalizeWikiTarget]
        rw [if_neg hnoslash, if_neg (by rw [hdate2]; exact Bool.false_ne_true)]
        rw [toLowerStr_eq_self_of_fix (fun c hc => (elseBranch_char_facts hc).1)]
        rw [show stripNonWord (jsTrim (collapseWs (stripNonWord (toLowerStr x)))) =
              jsTrim (collapseWs (stripNonWord (toLowerStr x))) from
            List.filter_eq_self.mpr (fun c hc => (elseBranch_char_facts hc).2.2.2)]
        rw [show collapseWs (jsTrim (collapseWs (stripNonWord (toLowerStr x)))) =
              jsTrim (collapseWs (stripNonWord (toLowerStr x))) from
            collapseWsAux_eq_self_of_noWs (fun c hc => (elseBranch_char_facts hc).2.1)]
        exact jsTrim_idem _
  · intro x hnoslash hdate
    conv_lhs => rw [normalizeWikiTarget]
    rw [if_neg hnoslash, if_pos hdate]

/-- Witness for the amended C2 theorem at `"Second Brain System!"`. -/
theorem normalize_idempotence_amended_witness :
    ('/' ∈ normalizeWikiTarget "Second Brain System!".toList ∨
      isDateShaped (normalizeWikiTarget "Second Brain System!".toList) = false) ∧
    normalizeWikiTarget (normalizeWikiTarget "Second Brain System!".toList) =
      normalizeWikiTarget "Second Brain System!".toList :=
  ⟨Or.inr (by decide),
   normalize_idempotence_amended.2.1 "Second Brain System!".toList (Or.inr (by decide))⟩

/-- Witness for C1: the first-match characterization applied at a concrete
single-document corpus. -/
theorem resolver_precedence_witness :
    resolveWikiLink "x/y".toList [⟨"x/y".toList, "T".toList⟩] =
      some ⟨"x/y".toList, "T".toList⟩ :=
  (resolver_precedence.1 "x/y".toList [⟨"x/y".toList, "T".toList⟩]
      ⟨"x/y".toList, "T".toList⟩).mpr
    (Or.inl ⟨0, Nat.succ_pos 0, rfl, by decide,
      fun j hj hji => absurd hji (Nat.not_lt_zero j)⟩)

theorem containsSub_nil (hay : List Char) : containsSub hay [] = true := by
  cases hay <;> simp [containsSub, List.isPrefixOf]

theorem find?_eq_head?_of_all {p : DocRef → Bool} {docs : List DocRef}
    (h : ∀ d ∈ docs, p d = true) : docs.find? p = docs.head? := by
  cases docs with
  | nil => rfl
  | cons a t => rw [List.find?_cons_of_pos _ (h a (List.mem_cons_self _ _)), List.head?_cons]

theorem lastSegment_eq_nil_iff {s : List Char} :
    lastSegment s = [] ↔ s = [] ∨ s.getLast? = some '/' := by
  unfold lastSegment
  rw [List.reverse_eq_nil_iff]
  cases hrev : s.reverse with
  | nil =>
    rw [List.reverse_eq_nil_iff] at hrev
    simp [hrev]
  | cons a t =>
    rw [List.takeWhile_cons]
    have hlast : s.getLast? = some a := by
      rw [List.getLast?_eq_head?_reverse, hrev, List.head?_cons]
    by_cases ha : a = '/'
    · subst ha
      simp [hlast]
    · rw [if_pos (by simpa using ha)]
      constructor
      · intro h
        cases h
      · rintro (rfl | h)
        · simp at hrev
        · rw [hlast] at h
          injection h with h
          exact absurd h ha

/-- C10. Resolving the empty target (e.g. the trimmed target of the
whitespace-only link `[[ ]]`) never returns `null` on a non-empty corpus,
because the fuzzy rule's substring test accepts the empty string against
every title; and when no title is empty and no slug is empty or ends in `/`,
it returns exactly the first document in corpus iteration order. -/
theorem empty_target_resolution :
    ((extractWikiLinks "[[ ]]".toList).map (fun l => l.target) = [[]]) ∧
    (∀ docs : List DocRef, docs ≠ [] → (resolveWikiLink [] docs).isSome = true) ∧
    (∀ docs : List DocRef,
      (∀ d ∈ docs, d.title ≠ [] ∧ d.slug ≠ [] ∧ d.slug.getLast? ≠ some '/') →
      resolveWikiLink [] docs = docs.head?) := by
  have hfuzzy : ∀ d : DocRef, fuzzyRule [] d = true := by
    intro d
    unfold fuzzyRule
    rw [show toLowerStr ([] : List Char) = [] from rfl, containsSub_nil]
    simp
  refine ⟨by decide, ?_, ?_⟩
  · intro docs hne
    unfold resolveWikiLink
    cases h1 : docs.find? (exactRule []) with
    | some e => rfl
    | none =>
      cases h2 : docs.find? (filenameRule []) with
      | some e => rfl
      | none =>
        cases h3 : docs.find? (titleRule []) with
        | some e => rfl
        | none =>
          rw [find?_eq_head?_of_all (fun d _ => hfuzzy d)]
          cases docs with
          | nil => exact absurd rfl hne
          | cons a t => rfl
  · intro docs hcond
    unfold resolveWikiLink
    have h1 : docs.find? (exactRule []) = none := by
      rw [List.find?_eq_none]
      intro d hd hcontra
      unfold exactRule at hcontra
      rw [show normalizeWikiTarget [] = [] from rfl] at hcontra
      exact (hcond d hd).2.1 (by simpa using hcontra)
    have h2 : docs.find? (filenameRule []) = none := by
      rw [List.find?_eq_none]
      intro d hd hcontra
      unfold filenameRule at hcontra
      rw [show normalizeWikiTarget [] = [] from rfl,
          show collapseWs (toLowerStr []) = [] from rfl] at hcontra
      have hfin : lastSegment d.slug = [] → False := by
        intro hnil
        rcases lastSegment_eq_nil_iff.mp hnil with h | h
        · exact (hcond d hd).2.1 h
        · exact (hcond d hd).2.2 h
      simp only [Bool.or_eq_true, decide_eq_true_eq] at hcontra
      rcases hcontra with h | h
      · exact hfin h
      · exact hfin h
    have h3 : docs.find? (titleRule []) = none := by
      rw [List.find?_eq_none]
      intro d hd hcontra
      unfold titleRule at hcontra
      rw [show toLowerStr ([] : List Char) = [] from rfl] at hcontra
      simp only [decide_eq_true_eq] at hcontra
      refine (hcond d hd).1 ?_
      unfold toLowerStr at hcontra
      exact List.map_eq_nil_iff.mp hcontra
    rw [h1, h2, h3, find?_eq_head?_of_all (fun d _ => hfuzzy d)]
    cases docs with
    | nil => rfl
    | cons a t => rfl

/-- Witness for C10 at a concrete two-document corpus. -/
theorem empty_target_resolution_witness :
    ([⟨"concepts/a".toList, "A".toList⟩, ⟨"concepts/b".toList, "B".toList⟩] ≠
      ([] : List DocRef)) ∧
    (resolveWikiLink []
      [⟨"concepts/a".toList, "A".toList⟩, ⟨"concepts/b".toList, "B".toList⟩]).isSome = true ∧
    resolveWikiLink []
      [⟨"concepts/a".toList, "A".toList⟩, ⟨"concepts/b".toList, "B".toList⟩] =
      [⟨"concepts/a".toList, "A".toList⟩, ⟨"concepts/b".toList, "B".toList⟩].head? :=
  ⟨by decide, empty_target_resolution.2.1 _ (by decide),
   empty_target_resolution.2.2 _ (by decide)⟩

theorem resolve_singleton_of_rule {target : List Char} {T : DocRef}
    (h : exactRule target T = true ∨ filenameRule target T = true ∨
         titleRule target T = true ∨ fuzzyRule target T = true) :
    resolveWikiLink target [T] = some T := by
  unfold resolveWikiLink
  by_cases h1 : exactRule target T
  · rw [List.find?_cons_of_pos _ h1]
  · rw [List.find?_cons_of_neg _ h1, List.find?_nil]
    by_cases h2 : filenameRule target T
    · rw [List.find?_cons_of_pos _ h2]
    · rw [List.find?_cons_of_neg _ h2, List.find?_nil]
      by_cases h3 : titleRule target T
      · rw [List.find?_cons_of_pos _ h3]
      · rw [List.find?_cons_of_neg _ h3, List.find?_nil]
        by_cases h4 : fuzzyRule target T
        · rw [List.find?_cons_of_pos _ h4]
        · rcases h with h | h | h | h
          · exact absurd h h1
          · exact absurd h h2
          · exact absurd h h3
          · exact absurd h h4

theorem resolve_mem_rule {target : List Char} {docs : List DocRef} {T : DocRef}
    (h : resolveWikiLink target docs = some T) :
    exactRule target T = true ∨ filenameRule target T = true ∨
    titleRule target T = true ∨ fuzzyRule target T = true := by
  unfold resolveWikiLink at h
  cases h1 : docs.find? (exactRule target) with
  | some e =>
    rw [h1] at h
    have h' : some e = some T := h
    injection h' with h'
    subst h'
    exact Or.inl (List.find?_some h1)
  | none =>
    rw [h1] at h
    cases h2 : docs.find? (filenameRule target) with
    | some e =>
      rw [h2] at h
      have h' : some e = some T := h
      injection h' with h'
      subst h'
      exact Or.inr (Or.inl (List.find?_some h2))
    | none =>
      rw [h2] at h
      cases h3 : docs.find? (titleRule target) with
      | some e =>
        rw [h3] at h
        have h' : some e = some T := h
        injection h' with h'
        subst h'
        exact Or.inr (Or.inr (Or.inl (List.find?_some h3)))
      | none =>
        rw [h3] at h
        cases h4 : docs.find? (fuzzyRule target) with
        | some e =>
          rw [h4] at h
          have h' : some e = some T := h
          injection h' with h'
          subst h'
          exact Or.inr (Or.inr (Or.inr (List.find?_some h4)))
        | none =>
          rw [h4] at h
          have h' : (none : Option DocRef) = some T := h
          cases h'

/-- C5 counterexample: for the occurrence target `"foo"` in a referring
document, the document `T = {slug: "concepts/x", title: "Food"}`, and the
corpus `[{slug: "concepts/foo", title: "Bar"}, T]`, singleton-pool
resolution succeeds (fuzzy title match) while full-corpus resolution
returns the other document, so the claimed equivalence fails. -/
theorem scoped_resolution_counterexample :
    ((extractWikiLinks "see [[foo]]".toList).map (fun l => l.target) =
      ["foo".toList]) ∧
    (resolveWikiLink "foo".toList [⟨"concepts/x".toList, "Food".toList⟩]).isSome = true ∧
    resolveWikiLink "foo".toList
      [⟨"concepts/foo".toList, "Bar".toList⟩, ⟨"concepts/x".toList, "Food".toList⟩] =
      some ⟨"concepts/foo".toList, "Bar".toList⟩ ∧
    ¬((resolveWikiLink "foo".toList [⟨"concepts/x".toList, "Food".toList⟩]).isSome = true ↔
      resolveWikiLink "foo".toList
        [⟨"concepts/foo".toList, "Bar".toList⟩, ⟨"concepts/x".toList, "Food".toList⟩] =
        some ⟨"concepts/x".toList, "Food".toList⟩) := by decide

/-- C5 amended: restricted resolution over-approximates full resolution
scoped to `T`: whenever full-corpus resolution returns `T`, resolving the
same target against the singleton pool `[T]` succeeds (and returns `T`);
the converse direction does not hold. -/
theorem scoped_resolution_amended :
    ∀ (target : List Char) (docs : List DocRef) (T : DocRef),
      resolveWikiLink target docs = some T → resolveWikiLink target [T] = some T :=
  fun _ _ _ h => resolve_singleton_of_rule (resolve_mem_rule h)

/-- Witness for the amended C5 theorem. -/
theorem scoped_resolution_amended_witness :
    resolveWikiLink "foo".toList
      [⟨"concepts/foo".toList, "Bar".toList⟩, ⟨"concepts/x".toList, "Food".toList⟩] =
      some ⟨"concepts/foo".toList, "Bar".toList⟩ ∧
    resolveWikiLink "foo".toList [⟨"concepts/foo".toList, "Bar".toList⟩] =
      some ⟨"concepts/foo".toList, "Bar".toList⟩ :=
  ⟨by decide,
   scoped_resolution_amended "foo".toList
     [⟨"concepts/foo".toList, "Bar".toList⟩, ⟨"concepts/x".toList, "Food".toList⟩]
     ⟨"concepts/foo".toList, "Bar".toList⟩ (by decide)⟩

theorem foldl_preserve {α σ : Type} (P : σ → Prop) (f : σ → α → σ)
    (hf : ∀ s a, P s → P (f s a)) :
    ∀ (l : List α) (s : σ), P s → P (l.foldl f s) := by
  intro l
  induction l with
  | nil => exact fun s hs => hs
  | cons a t ih =>
    intro s hs
    exact ih (f s a) (hf s a hs)

theorem graphStep_edges (refs : List DocRef) (doc : GDoc) (st : GraphState)
    (target : List Char) (h : EdgesOk st.links) :
    EdgesOk (graphStep refs doc st target).links := by
  unfold graphStep
  split
  · exact h
  · next ts =>
    split
    · next hcond =>
      dsimp only
      split
      · exact h
      · next hdup =>
        push_neg at hdup
        constructor
        · intro e he
          rcases List.mem_append.mp he with he | he
          · exact h.1 e he
          · rw [List.mem_singleton] at he
            subst he
            exact fun hc => hcond.2 hc.symm
        · rw [List.pairwise_append]
          refine ⟨h.2, List.pairwise_singleton _ _, ?_⟩
          intro a ha b hb
          rw [List.mem_singleton] at hb
          subst hb
          rintro (⟨hs, ht⟩ | ⟨hs, ht⟩) <;> dsimp only at hs ht
          · exact hdup.1 (List.mem_map.mpr ⟨a, ha, by rw [← hs, ← ht]⟩)
          · exact hdup.2 (List.mem_map.mpr ⟨a, ha, by rw [← hs, ← ht]⟩)
    · exact h

/-- C3. Graph edge invariant: for every corpus, the edge list of
`getGraphData` has no self-edges, and no two edges (in either orientation)
connect the same unordered pair of documents. -/
theorem graph_edge_invariant (documents : List GDoc) :
    (∀ e ∈ (getGraphData documents).links, e.source ≠ e.target) ∧
    (getGraphData documents).links.Pairwise (fun e1 e2 => ¬ SamePair e1 e2) := by
  have hmain : EdgesOk (getGraphData documents).links := by
    show EdgesOk (buildGraphState documents
      (documents.map (fun d => (⟨d.slug, d.title⟩ : DocRef)))).links
    unfold buildGraphState
    apply foldl_preserve (fun st : GraphState => EdgesOk st.links)
    · intro st doc hst
      apply foldl_preserve (fun st : GraphState => EdgesOk st.links)
      · intro st2 target hst2
        exact graphStep_edges _ doc st2 target hst2
      · exact hst
    · exact ⟨fun e he => absurd he (List.not_mem_nil e), List.Pairwise.nil⟩
  exact hmain

/-- Witness for C3 at a corpus with a mutual A→B, B→A link pair. -/
theorem graph_edge_invariant_witness :
    (⟨"concepts/a".toList, "concepts/b".toList⟩ : GraphLink) ∈
      (getGraphData
        [⟨"concepts/a".toList, "A".toList, "[[concepts/b]]".toList, "concepts".toList⟩,
         ⟨"concepts/b".toList, "B".toList, "[[concepts/a]]".toList, "concepts".toList⟩]).links ∧
    "concepts/a".toList ≠ "concepts/b".toList :=
  ⟨by decide,
   (graph_edge_invariant
      [⟨"concepts/a".toList, "A".toList, "[[concepts/b]]".toList, "concepts".toList⟩,
       ⟨"concepts/b".toList, "B".toList, "[[concepts/a]]".toList, "concepts".toList⟩]).1
     ⟨"concepts/a".toList, "concepts/b".toList⟩ (by decide)⟩

theorem lookupCount_bump (t s : List Char) (m : List (List Char × Nat)) :
    lookupCount (bump t m) s = lookupCount m s + (if t = s then 1 else 0) := by
  induction m with
  | nil =>
    simp only [bump, lookupCount]
    by_cases h : t = s <;> simp [h]
  | cons kv rest ih =>
    obtain ⟨k, v⟩ := kv
    simp only [bump]
    by_cases hk : k = t
    · subst hk
      simp only [if_pos rfl, lookupCount]
      by_cases hs : k = s <;> simp [hs]
    · rw [if_neg hk]
      simp only [lookupCount]
      by_cases hs : k = s
      · rw [if_pos hs, if_pos hs]
        have ht : ¬ t = s := fun h => hk (h ▸ hs)
        rw [if_neg ht]
        omega
      · rw [if_neg hs, if_neg hs]
        exact ih

theorem graphStep_counts (refs : List DocRef) (doc : GDoc) (st : GraphState)
    (target s : List Char) :
    lookupCount (graphStep refs doc st target).counts s =
      lookupCount st.counts s + occContrib refs doc target s := by
  unfold graphStep occContrib
  split
  · rfl
  · next x ts heq =>
    by_cases hcond : ts ≠ [] ∧ ts ≠ doc.slug
    · rw [if_pos hcond, if_pos hcond]
      dsimp only
      rw [lookupCount_bump, lookupCount_bump]
      by_cases h1 : doc.slug = s <;> by_cases h2 : ts = s <;>
        simp only [h1, h2, if_true, if_false]
    · rw [if_neg hcond, if_neg hcond]
      rfl

theorem foldl_graphStep_counts (refs : List DocRef) (doc : GDoc) (s : List Char) :
    ∀ (tgts : List (List Char)) (st : GraphState),
    lookupCount ((tgts.foldl (graphStep refs doc) st).counts) s =
      lookupCount st.counts s + (tgts.map (fun t => occContrib refs doc t s)).sum := by
  intro tgts
  induction tgts with
  | nil =>
    intro st
    simp
  | cons t rest ih =>
    intro st
    rw [List.foldl_cons, ih, graphStep_counts, List.map_cons, List.sum_cons]
    omega

theorem buildGraphState_counts (documents : List GDoc) (refs : List DocRef)
    (s : List Char) :
    lookupCount (buildGraphState documents refs).counts s =
      occTotal documents refs s := by
  unfold buildGraphState occTotal
  suffices h : ∀ (ds : List GDoc) (st : GraphState),
      lookupCount ((ds.foldl
        (fun st doc => (extractTargets doc.content).foldl (graphStep refs doc) st)
        st).counts) s =
      lookupCount st.counts s +
        (ds.map (fun doc =>
          ((extractTargets doc.content).map (fun t => occContrib refs doc t s)).sum)).sum by
    rw [h documents ⟨[], []⟩]
    simp [lookupCount]
  intro ds
  induction ds with
  | nil =>
    intro st
    simp
  | cons doc rest ih =>
    intro st
    rw [List.foldl_cons, ih, foldl_graphStep_counts, List.map_cons, List.sum_cons]
    omega

/-- C4 counterexample: in the corpus where `concepts/a` links to
`concepts/b` twice, dedup leaves one edge (each node has one distinct
connection), yet both nodes carry `linkCount = 2` — the counter increments
happen outside the dedup check, once per resolved non-self occurrence. -/
theorem link_count_semantics_counterexample :
    ((getGraphData
        [⟨"concepts/a".toList, "A".toList, "[[concepts/b]] [[concepts/b]]".toList,
          "concepts".toList⟩,
         ⟨"concepts/b".toList, "B".toList, [], "concepts".toList⟩]).links.length = 1) ∧
    ((getGraphData
        [⟨"concepts/a".toList, "A".toList, "[[concepts/b]] [[concepts/b]]".toList,
          "concepts".toList⟩,
         ⟨"concepts/b".toList, "B".toList, [], "concepts".toList⟩]).nodes.map
      (fun n => n.linkCount) = [2, 2]) ∧
    ¬(∀ n ∈ (getGraphData
        [⟨"concepts/a".toList, "A".toList, "[[concepts/b]] [[concepts/b]]".toList,
          "concepts".toList⟩,
         ⟨"concepts/b".toList, "B".toList, [], "concepts".toList⟩]).nodes,
        n.linkCount = incidentCount (getGraphData
          [⟨"concepts/a".toList, "A".toList, "[[concepts/b]] [[concepts/b]]".toList,
            "concepts".toList⟩,
           ⟨"concepts/b".toList, "B".toList, [], "concepts".toList⟩]).links n.id) := by
  decide

/-- C4 amended: a node's `linkCount` is the raw occurrence volume — the
counter is incremented for both endpoints of every resolved, non-empty,
non-self link occurrence, regardless of the edge dedup set — not the number
of distinct connections. -/
theorem link_count_semantics_amended :
    ∀ (documents : List GDoc) (n : GraphNode),
      n ∈ (getGraphData documents).nodes →
      n.linkCount =
        occTotal documents (documents.map (fun d => (⟨d.slug, d.title⟩ : DocRef))) n.id := by
  intro documents n hn
  obtain ⟨doc, hdoc, rfl⟩ := List.mem_map.mp hn
  exact buildGraphState_counts documents
    (documents.map (fun d => (⟨d.slug, d.title⟩ : DocRef))) doc.slug

/-- Witness for the amended C4 theorem on the double-link corpus. -/
theorem link_count_semantics_amended_witness :
    (⟨"concepts/a".toList, "A".toList, "concepts".toList, 2, 8⟩ : GraphNode) ∈
      (getGraphData
        [⟨"concepts/a".toList, "A".toList, "[[concepts/b]] [[concepts/b]]".toList,
          "concepts".toList⟩,
         ⟨"concepts/b".toList, "B".toList, [], "concepts".toList⟩]).nodes ∧
    (⟨"concepts/a".toList, "A".toList, "concepts".toList, 2, 8⟩ : GraphNode).linkCount =
      occTotal
        [⟨"concepts/a".toList, "A".toList, "[[concepts/b]] [[concepts/b]]".toList,
          "concepts".toList⟩,
         ⟨"concepts/b".toList, "B".toList, [], "concepts".toList⟩]
        (([⟨"concepts/a".toList, "A".toList, "[[concepts/b]] [[concepts/b]]".toList,
          "concepts".toList⟩,
         ⟨"concepts/b".toList, "B".toList, [], "concepts".toList⟩] : List GDoc).map
          (fun d => (⟨d.slug, d.title⟩ : DocRef)))
        (⟨"concepts/a".toList, "A".toList, "concepts".toList, 2, 8⟩ : GraphNode).id :=
  ⟨by decide,
   link_count_semantics_amended
     [⟨"concepts/a".toList, "A".toList, "[[concepts/b]] [[concepts/b]]".toList,
       "concepts".toList⟩,
      ⟨"concepts/b".toList, "B".toList, [], "concepts".toList⟩]
     ⟨"concepts/a".toList, "A".toList, "concepts".toList, 2, 8⟩ (by decide)⟩

/-- C9. The graph builder emits exactly one node per corpus document, in
corpus order (so isolated documents get nodes too), each node's size is
`clamp(4, 20, 4 + linkCount * 2)`, and the one-document no-links corpus
yields a single node with `linkCount 0`, `size 4` and no edges. -/
theorem node_construction (documents : List GDoc) :
    ((getGraphData documents).nodes.map (fun n => n.id) =
      documents.map (fun d => d.slug)) ∧
    (∀ n ∈ (getGraphData documents).nodes,
      n.size = max 4 (min 20 (4 + n.linkCount * 2))) ∧
    getGraphData [⟨"journals/2026-01-29".toList, "2026 01 29".toList,
        "no links here".toList, "journals".toList⟩] =
      ⟨[⟨"journals/2026-01-29".toList, "2026 01 29".toList, "journals".toList, 0, 4⟩],
       []⟩ := by
  refine ⟨?_, ?_, by decide⟩
  · show (documents.map (mkGraphNode (buildGraphState documents
      (documents.map (fun d => (⟨d.slug, d.title⟩ : DocRef)))).counts)).map (fun n => n.id) =
      documents.map (fun d => d.slug)
    rw [List.map_map]
    exact List.map_congr_left (fun d _ => rfl)
  · intro n hn
    obtain ⟨doc, _, rfl⟩ := List.mem_map.mp hn
    rfl

/-- Witness for C9 at the one-document corpus. -/
theorem node_construction_witness :
    (⟨"journals/2026-01-29".toList, "2026 01 29".toList, "journals".toList, 0, 4⟩ :
        GraphNode) ∈
      (getGraphData [⟨"journals/2026-01-29".toList, "2026 01 29".toList,
        "no links here".toList, "journals".toList⟩]).nodes ∧
    (⟨"journals/2026-01-29".toList, "2026 01 29".toList, "journals".toList, 0, 4⟩ :
        GraphNode).size =
      max 4 (min 20 (4 +
        (⟨"journals/2026-01-29".toList, "2026 01 29".toList, "journals".toList, 0, 4⟩ :
          GraphNode).linkCount * 2)) :=
  ⟨by decide,
   (node_construction [⟨"journals/2026-01-29".toList, "2026 01 29".toList,
      "no links here".toList, "journals".toList⟩]).2.1
     ⟨"journals/2026-01-29".toList, "2026 01 29".toList, "journals".toList, 0, 4⟩
     (by decide)⟩

theorem backlinkEntry_some {tS tT : List Char} {doc : Doc} {b : Backlink}
    (h : backlinkEntry tS tT doc = some b) :
    b.slug = doc.slug ∧ doc.slug ≠ tS ∧
      ∃ link, (extractWikiLinks doc.content).find? (backlinkPred tS tT) = some link ∧
        b = ⟨doc.slug, doc.title, backlinkContext doc.content link⟩ := by
  unfold backlinkEntry at h
  by_cases hslug : doc.slug = tS
  · rw [if_pos hslug] at h
    cases h
  · rw [if_neg hslug] at h
    cases hfind : (extractWikiLinks doc.content).find? (backlinkPred tS tT) with
    | none =>
      rw [hfind] at h
      cases h
    | some link =>
      rw [hfind] at h
      have h' : some (⟨doc.slug, doc.title, backlinkContext doc.content link⟩ : Backlink) =
          some b := h
      injection h' with h'
      exact ⟨by rw [← h'], hslug, link, rfl, h'.symm⟩

/-- C7. Backlink single-count: when corpus slugs are distinct, every
document contributes at most one backlink entry (the recorded slugs are
pairwise distinct), the target never appears among its own backlinks, and
every non-target document with at least one occurrence resolving to the
target appears (so multiple links still yield exactly one entry). -/
theorem backlink_single_count :
    ∀ (tS tT : List Char) (docs : List Doc),
      (docs.map (fun d => d.slug)).Nodup →
      (((getBacklinks tS tT docs).map (fun b => b.slug)).Nodup ∧
       (∀ b ∈ getBacklinks tS tT docs, b.slug ≠ tS) ∧
       (∀ doc ∈ docs, doc.slug ≠ tS →
         ((extractWikiLinks doc.content).find? (backlinkPred tS tT)).isSome = true →
         ∃ b ∈ getBacklinks tS tT docs, b.slug = doc.slug)) := by
  intro tS tT docs hnd
  have hmemslug : ∀ (ds : List Doc) (b : Backlink), b ∈ getBacklinks tS tT ds →
      b.slug ∈ ds.map (fun d => d.slug) := by
    intro ds b hb
    obtain ⟨doc, hdoc, hf⟩ := List.mem_filterMap.mp hb
    obtain ⟨hslug, _, _⟩ := backlinkEntry_some hf
    exact List.mem_map.mpr ⟨doc, hdoc, hslug.symm⟩
  refine ⟨?_, ?_, ?_⟩
  · have hnodup : ∀ ds : List Doc, (ds.map (fun d => d.slug)).Nodup →
        ((getBacklinks tS tT ds).map (fun b => b.slug)).Nodup := by
      intro ds
      induction ds with
      | nil =>
        intro _
        exact List.Pairwise.nil
      | cons doc rest ih =>
        intro hnd2
        rw [List.map_cons, List.nodup_cons] at hnd2
        obtain ⟨hnotin, hnd'⟩ := hnd2
        show ((List.filterMap (backlinkEntry tS tT) (doc :: rest)).map
          (fun b => b.slug)).Nodup
        rw [List.filterMap_cons]
        cases hf : backlinkEntry tS tT doc with
        | none => exact ih hnd'
        | some b =>
          rw [List.map_cons, List.nodup_cons]
          refine ⟨?_, ih hnd'⟩
          intro hmem
          obtain ⟨hslug, _, _⟩ := backlinkEntry_some hf
          rw [hslug] at hmem
          obtain ⟨b', hb', hbslug⟩ := List.mem_map.mp hmem
          have hin := hmemslug rest b' hb'
          rw [hbslug] at hin
          exact hnotin hin
    exact hnodup docs hnd
  · intro b hb
    obtain ⟨doc, _, hf⟩ := List.mem_filterMap.mp hb
    obtain ⟨hslug, hne, _⟩ := backlinkEntry_some hf
    rw [hslug]
    exact hne
  · intro doc hdoc hne hsome
    obtain ⟨link, hlink⟩ := Option.isSome_iff_exists.mp hsome
    refine ⟨⟨doc.slug, doc.title, backlinkContext doc.content link⟩, ?_, rfl⟩
    apply List.mem_filterMap.mpr
    refine ⟨doc, hdoc, ?_⟩
    unfold backlinkEntry
    rw [if_neg hne, hlink]
    rfl

/-- Witness for C7: a document linking to the target three times, plus the
target itself, with distinct slugs. -/
theorem backlink_single_count_witness :
    (([⟨"concepts/r".toList, "R".toList, "[[T]] one [[T]] two [[T]]".toList⟩,
       ⟨"concepts/t".toList, "T".toList, "x".toList⟩] : List Doc).map
        (fun d => d.slug)).Nodup ∧
    (((getBacklinks "concepts/t".toList "T".toList
        [⟨"concepts/r".toList, "R".toList, "[[T]] one [[T]] two [[T]]".toList⟩,
         ⟨"concepts/t".toList, "T".toList, "x".toList⟩]).map (fun b => b.slug)).Nodup ∧
     (∀ b ∈ getBacklinks "concepts/t".toList "T".toList
        [⟨"concepts/r".toList, "R".toList, "[[T]] one [[T]] two [[T]]".toList⟩,
         ⟨"concepts/t".toList, "T".toList, "x".toList⟩], b.slug ≠ "concepts/t".toList) ∧
     (∀ doc ∈ ([⟨"concepts/r".toList, "R".toList, "[[T]] one [[T]] two [[T]]".toList⟩,
         ⟨"concepts/t".toList, "T".toList, "x".toList⟩] : List Doc),
        doc.slug ≠ "concepts/t".toList →
        ((extractWikiLinks doc.content).find?
          (backlinkPred "concepts/t".toList "T".toList)).isSome = true →
        ∃ b ∈ getBacklinks "concepts/t".toList "T".toList
          [⟨"concepts/r".toList, "R".toList, "[[T]] one [[T]] two [[T]]".toList⟩,
           ⟨"concepts/t".toList, "T".toList, "x".toList⟩], b.slug = doc.slug)) :=
  ⟨by decide,
   backlink_single_count "concepts/t".toList "T".toList
     [⟨"concepts/r".toList, "R".toList, "[[T]] one [[T]] two [[T]]".toList⟩,
      ⟨"concepts/t".toList, "T".toList, "x".toList⟩] (by decide)⟩

theorem slice_take_drop (content : List Char) (a b : Nat) :
    (content.drop a).take (b - a) = (content.take b).drop a := by
  rw [List.take_drop]
  by_cases hab : a ≤ b
  · rw [Nat.add_sub_cancel' hab]
  · have hb : a + (b - a) = a := by omega
    rw [hb]
    have h1 : (content.take a).drop a = [] :=
      List.drop_eq_nil_iff.mpr (by simp)
    have h2 : (content.take b).drop a = [] :=
      List.drop_eq_nil_iff.mpr (by simp; omega)
    rw [h1, h2]

theorem backlinkContext_eq_amended (content : List Char) (l : WikiLink) :
    backlinkContext content l = amendedContext content l := by
  unfold backlinkContext amendedContext
  apply congrArg jsTrim
  rw [slice_take_drop]
  by_cases h1 : 0 < l.startIndex - 50 <;>
    by_cases h2 : min content.length (l.endIndex + 50) < content.length
  · rw [if_pos h1, if_pos h2, if_pos (by omega : 50 < l.startIndex),
      if_pos (by omega : l.endIndex + 50 < content.length)]
  · rw [if_pos h1, if_neg h2, if_pos (by omega : 50 < l.startIndex),
      if_neg (by omega : ¬ l.endIndex + 50 < content.length), List.append_nil]
  · rw [if_neg h1, if_pos h2, if_neg (by omega : ¬ 50 < l.startIndex),
      if_pos (by omega : l.endIndex + 50 < content.length), List.nil_append]
  · rw [if_neg h1, if_neg h2, if_neg (by omega : ¬ 50 < l.startIndex),
      if_neg (by omega : ¬ l.endIndex + 50 < content.length), List.nil_append,
      List.append_nil]

/-- C6 counterexample: for the referring document with content `"[[T]] "`,
the window `[-50, 55]` is clamped to the bounds at both edges, yet the code
adds no ellipses (it adds them only when the window starts or ends strictly
inside the content) and additionally trims the excerpt; the context the
claim describes differs from the recorded one. -/
theorem backlink_context_counterexample :
    extractWikiLinks "[[T]] ".toList =
      [⟨"[[T]]".toList, "T".toList, none, 0, 5⟩] ∧
    (getBacklinks "concepts/t".toList "T".toList
      [⟨"concepts/r".toList, "R".toList, "[[T]] ".toList⟩]).map (fun b => b.context) =
      ["[[T]]".toList] ∧
    claimContext "[[T]] ".toList ⟨"[[T]]".toList, "T".toList, none, 0, 5⟩ =
      "...[[T]] ...".toList ∧
    ("[[T]]".toList : List Char) ≠ "...[[T]] ...".toList := by decide

/-- C6 amended: every recorded backlink's context comes from the
`[startIndex-50, endIndex+50]` window of the first matching occurrence,
clamped to the content bounds, with an ellipsis at an edge exactly when
content was omitted at that edge (not when the window was clamped there),
newlines then replaced by spaces, and the excerpt finally trimmed. -/
theorem backlink_context_amended :
    ∀ (tS tT : List Char) (docs : List Doc) (b : Backlink),
      b ∈ getBacklinks tS tT docs →
      ∃ doc ∈ docs, doc.slug ≠ tS ∧
        ∃ link, (extractWikiLinks doc.content).find? (backlinkPred tS tT) = some link ∧
          b = ⟨doc.slug, doc.title, amendedContext doc.content link⟩ := by
  intro tS tT docs b hb
  obtain ⟨doc, hdoc, hf⟩ := List.mem_filterMap.mp hb
  obtain ⟨_, hne, link, hlink, hbeq⟩ := backlinkEntry_some hf
  exact ⟨doc, hdoc, hne, link, hlink, by rw [hbeq, backlinkContext_eq_amended]⟩

/-- Witness for the amended C6 theorem. -/
theorem backlink_context_amended_witness :
    (⟨"concepts/r".toList, "R".toList, "[[T]]".toList⟩ : Backlink) ∈
      getBacklinks "concepts/t".toList "T".toList
        [⟨"concepts/r".toList, "R".toList, "[[T]] ".toList⟩] ∧
    (∃ doc ∈ ([⟨"concepts/r".toList, "R".toList, "[[T]] ".toList⟩] : List Doc),
      doc.slug ≠ "concepts/t".toList ∧
      ∃ link, (extractWikiLinks doc.content).find?
          (backlinkPred "concepts/t".toList "T".toList) = some link ∧
        (⟨"concepts/r".toList, "R".toList, "[[T]]".toList⟩ : Backlink) =
          ⟨doc.slug, doc.title, amendedContext doc.content link⟩) :=
  ⟨by decide,
   backlink_context_amended "concepts/t".toList "T".toList
     [⟨"concepts/r".toList, "R".toList, "[[T]] ".toList⟩]
     ⟨"concepts/r".toList, "R".toList, "[[T]]".toList⟩ (by decide)⟩

theorem outlinksLoop_eq_dedup (documents : List DocRef) :
    ∀ (ls : List WikiLink) (seen : List (List Char)),
      outlinksLoop documents seen ls =
        (dedupFirstAux seen ls).map (mkOutlink documents) := by
  intro ls
  induction ls with
  | nil =>
    intro seen
    rfl
  | cons l rest ih =>
    intro seen
    unfold outlinksLoop dedupFirstAux
    by_cases h : toLowerStr l.target ∈ seen
    · rw [if_pos h, if_pos h, ih]
    · rw [if_neg h, if_neg h, List.map_cons, ih]

theorem dedupFirstAux_not_mem_seen {x : List Char} :
    ∀ (ls : List WikiLink) (seen : List (List Char)),
      x ∈ (dedupFirstAux seen ls).map (fun l => toLowerStr l.target) → x ∉ seen := by
  intro ls
  induction ls with
  | nil =>
    intro seen h
    cases h
  | cons l rest ih =>
    intro seen h
    unfold dedupFirstAux at h
    by_cases hmem : toLowerStr l.target ∈ seen
    · rw [if_pos hmem] at h
      exact ih seen h
    · rw [if_neg hmem, List.map_cons] at h
      rcases List.mem_cons.mp h with rfl | h
      · exact hmem
      · intro hx
        exact ih (toLowerStr l.target :: seen) h (List.mem_cons_of_mem _ hx)

theorem dedupFirstAux_nodup :
    ∀ (ls : List WikiLink) (seen : List (List Char)),
      ((dedupFirstAux seen ls).map (fun l => toLowerStr l.target)).Nodup := by
  intro ls
  induction ls with
  | nil =>
    intro seen
    exact List.Pairwise.nil
  | cons l rest ih =>
    intro seen
    unfold dedupFirstAux
    by_cases hmem : toLowerStr l.target ∈ seen
    · rw [if_pos hmem]
      exact ih seen
    · rw [if_neg hmem, List.map_cons, List.nodup_cons]
      refine ⟨?_, ih (toLowerStr l.target :: seen)⟩
      intro hin
      exact dedupFirstAux_not_mem_seen rest (toLowerStr l.target :: seen) hin
        (List.mem_cons_self _ _)

theorem dedupFirstAux_sublist :
    ∀ (ls : List WikiLink) (seen : List (List Char)),
      List.Sublist (dedupFirstAux seen ls) ls := by
  intro ls
  induction ls with
  | nil =>
    intro seen
    exact List.Sublist.refl []
  | cons l rest ih =>
    intro seen
    unfold dedupFirstAux
    by_cases hmem : toLowerStr l.target ∈ seen
    · rw [if_pos hmem]
      exact List.Sublist.cons l (ih seen)
    · rw [if_neg hmem]
      exact List.Sublist.cons₂ l (ih (toLowerStr l.target :: seen))

theorem dedupFirstAux_covers {l : WikiLink} :
    ∀ (ls : List WikiLink) (seen : List (List Char)), l ∈ ls →
      toLowerStr l.target ∈ seen ∨
      toLowerStr l.target ∈ (dedupFirstAux seen ls).map (fun x => toLowerStr x.target) := by
  intro ls
  induction ls with
  | nil =>
    intro seen h
    cases h
  | cons hd rest ih =>
    intro seen hmem
    unfold dedupFirstAux
    by_cases hseen : toLowerStr hd.target ∈ seen
    · rw [if_pos hseen]
      rcases List.mem_cons.mp hmem with rfl | hmem
      · exact Or.inl hseen
      · exact ih seen hmem
    · rw [if_neg hseen, List.map_cons]
      rcases List.mem_cons.mp hmem with rfl | hmem
      · exact Or.inr (List.mem_cons_self _ _)
      · rcases ih (toLowerStr hd.target :: seen) hmem with h | h
        · rcases List.mem_cons.mp h with heq | h
          · exact Or.inr (heq ▸ List.mem_cons_self _ _)
          · exact Or.inl h
        · exact Or.inr (List.mem_cons_of_mem _ h)

/-- C8. Outlink derivation: the outlinks are exactly one entry per distinct
lower-cased target string (first occurrence wins, first-seen order preserved
as a sublist of the occurrence sequence, and every occurrence's target
represented), and an unresolvable target is still emitted — with
`exists = false` and both slug and title falling back to the raw target —
rather than raising. -/
theorem outlink_derivation :
    (∀ (targetDoc : Doc) (documents : List Doc),
      getOutlinks targetDoc documents =
        (dedupFirst (extractWikiLinks targetDoc.content)).map
          (mkOutlink (documents.map (fun d => (⟨d.slug, d.title⟩ : DocRef))))) ∧
    (∀ ls : List WikiLink,
      ((dedupFirst ls).map (fun l => toLowerStr l.target)).Nodup) ∧
    (∀ ls : List WikiLink, List.Sublist (dedupFirst ls) ls) ∧
    (∀ (ls : List WikiLink) (l : WikiLink), l ∈ ls →
      toLowerStr l.target ∈ (dedupFirst ls).map (fun x => toLowerStr x.target)) ∧
    (∀ (refs : List DocRef) (l : WikiLink),
      resolveWikiLink l.target refs = none →
      mkOutlink refs l = ⟨l.target, l.target, false⟩) := by
  refine ⟨?_, ?_, ?_, ?_, ?_⟩
  · intro targetDoc documents
    unfold getOutlinks dedupFirst
    exact outlinksLoop_eq_dedup _ _ []
  · intro ls
    exact dedupFirstAux_nodup ls []
  · intro ls
    exact dedupFirstAux_sublist ls []
  · intro ls l hl
    rcases dedupFirstAux_covers ls [] hl with h | h
    · cases h
    · exact h
  · intro refs l h
    unfold mkOutlink
    rw [h]

/-- Witness for C8 on a document with repeated, case-varying and
unresolvable targets. -/
theorem outlink_derivation_witness :
    getOutlinks
      ⟨"concepts/a".toList, "A".toList,
        "[[Target]] then [[target]] then [[Nowhere]] and [[Target]]".toList⟩
      [⟨"concepts/a".toList, "A".toList, []⟩,
       ⟨"concepts/target".toList, "Target".toList, []⟩] =
      (dedupFirst (extractWikiLinks
        "[[Target]] then [[target]] then [[Nowhere]] and [[Target]]".toList)).map
        (mkOutlink (([⟨"concepts/a".toList, "A".toList, []⟩,
          ⟨"concepts/target".toList, "Target".toList, []⟩] : List Doc).map
            (fun d => (⟨d.slug, d.title⟩ : DocRef)))) ∧
    resolveWikiLink "Nowhere".toList
      [⟨"concepts/a".toList, "A".toList⟩, ⟨"concepts/target".toList, "Target".toList⟩] =
      none ∧
    mkOutlink [⟨"concepts/a".toList, "A".toList⟩,
        ⟨"concepts/target".toList, "Target".toList⟩]
      ⟨"[[Nowhere]]".toList, "Nowhere".toList, none, 33, 44⟩ =
      ⟨"Nowhere".toList, "Nowhere".toList, false⟩ :=
  ⟨outlink_derivation.1
     ⟨"concepts/a".toList, "A".toList,
       "[[Target]] then [[target]] then [[Nowhere]] and [[Target]]".toList⟩
     [⟨"concepts/a".toList, "A".toList, []⟩,
      ⟨"concepts/target".toList, "Target".toList, []⟩],
   by decide,
   outlink_derivation.2.2.2.2
     [⟨"concepts/a".toList, "A".toList⟩, ⟨"concepts/target".toList, "Target".toList⟩]
     ⟨"[[Nowhere]]".toList, "Nowhere".toList, none, 33, 44⟩ (by decide)⟩
